import Mathlib

/- Formal model of the PLRT pre-processing pipeline from the script
   pre_processing and exploratory_data_analysis.

   Timestamps are modelled as natural numbers (seconds since an epoch); a
   missing timestamp (NaT, produced by pd.to_datetime with errors=coerce)
   is none.  Numeric field values are rationals; a missing value (NaN) is
   none.  Each selected field column is modelled independently as a
   List (Option Rat), matching the per-column semantics of the pandas
   operations used by the script. -/

/-- Configured fine interval: EXPECTED_FREQ = 10min, in seconds. -/
def EXPECTED_FREQ : Nat := 600

/-- Configured coarse interval: RESAMPLE_FREQ = H (one hour), in seconds. -/
def RESAMPLE_FREQ : Nat := 3600

/-- Fixed UTC offset added on line 52: pd.Timedelta(hours=7), in seconds. -/
def WIB_OFFSET : Nat := 7 * 3600

/-- Failures raised by the pandas calls in the script (both surface as a
ValueError at runtime): pd.date_range with NaT endpoints, and reindex on a
non-unique index. -/
inductive PandasError where
  | emptyInput
  | duplicateLabels
deriving DecidableEq, Repr

/-- df.Time.min() and df.Time.max() skip NaT entries: this collects the
valid (successfully parsed) timestamps of the raw input, in input order. -/
def validTimes (times : List (Option Nat)) : List Nat :=
  times.filterMap id

/-- pd.date_range lo hi step: the sequence lo, lo+step, lo+2*step, ...,
stopping at the last point that does not exceed hi. -/
def date_range (lo hi step : Nat) : List Nat :=
  (List.range ((hi - lo) / step + 1)).map (fun k => lo + k * step)

/-- Grid Builder, line 45 of the script:
full_index = pd.date_range(start=df.Time.min(), end=df.Time.max(),
freq=EXPECTED_FREQ).  When zero timestamps parse, min and max are NaT and
pd.date_range raises a ValueError, modelled as the emptyInput error. -/
def full_index (times : List (Option Nat)) (step : Nat) :
    Except PandasError (List Nat) :=
  match (validTimes times).min?, (validTimes times).max? with
  | some lo, some hi => Except.ok (date_range lo hi step)
  | _, _ => Except.error PandasError.emptyInput

/-- A raw row after timestamp parsing: the parsed timestamp (none = NaT)
and the values of the selected numeric fields (none = NaN). -/
structure RawRow where
  time : Option Nat
  vals : List (Option Rat)
deriving DecidableEq, Repr

/-- Series Reconciler, line 46: df.set_index(Time).reindex(full_index).
pandas reindex raises a ValueError (cannot reindex on an axis with
duplicate labels) whenever the existing index is not unique — including
two NaT entries; otherwise every grid timestamp receives the values of the
unique raw row with exactly that timestamp, or an all-NaN row when no raw
row matches.  Rows whose timestamp is NaT never match a grid timestamp. -/
def reindex (rows : List RawRow) (nfields : Nat) (grid : List Nat) :
    Except PandasError (List (List (Option Rat))) :=
  if (rows.map (·.time)).Nodup then
    Except.ok (grid.map (fun t =>
      match rows.find? (fun r => r.time == some t) with
      | some r => r.vals
      | none => List.replicate nfields none))
  else Except.error PandasError.duplicateLabels

/-- The grid position j together with its value, when the column holds a
known (non-NaN) value there. -/
def knownAt (col : List (Option Rat)) (j : Nat) : Option (Nat × Rat) :=
  match col[j]? with
  | some (some v) => some (j, v)
  | _ => none

/-- Nearest known value at or before position i (scanning i, i-1, ..., 0). -/
def prevKnown (col : List (Option Rat)) (i : Nat) : Option (Nat × Rat) :=
  (List.range (i + 1)).reverse.findSome? (knownAt col)

/-- Nearest known value at or after position i (scanning i, i+1, ...). -/
def nextKnown (col : List (Option Rat)) (i : Nat) : Option (Nat × Rat) :=
  ((List.range (col.length - i)).map (i + ·)).findSome? (knownAt col)

/-- Gap Interpolator, line 49:
df.interpolate(method=linear, limit_direction=both, inplace=True).
With method=linear pandas interpolates positionally (the row number plays
the role of the x coordinate; here the index is the gapless grid, so the
two notions agree): a position whose value is known keeps it; a position
strictly between two known values receives the straight line through the
two nearest known neighbours; with limit_direction=both a position before
the first known value receives that first known value and a position after
the last known value receives that last known value; a column with no
known value at all is left untouched (pandas raises no error).
interpValue gives the filled value at one grid position. -/
def interpValue (col : List (Option Rat)) (i : Nat) : Option Rat :=
  match prevKnown col i, nextKnown col i with
  | some (j1, v1), some (j2, v2) =>
      if j1 = j2 then some v1
      else some (v1 + (v2 - v1) * (((i : Rat) - (j1 : Rat)) / ((j2 : Rat) - (j1 : Rat))))
  | some (_, v1), none => some v1
  | none, some (_, v2) => some v2
  | none, none => none

/-- The interpolated column: one value per grid position. -/
def interpolate (col : List (Option Rat)) : List (Option Rat) :=
  (List.range col.length).map (interpValue col)

/-- Line 52: df.WIB = df.Time + pd.Timedelta(hours=7).  A new column is
created next to the grid timestamps; the Time column is not modified. -/
def addWIB (times : List Nat) : List (Nat × Nat) :=
  times.map (fun t => (t, t + WIB_OFFSET))

/-- The coarse bin start a timestamp falls into: resample with an hourly
frequency truncates the timestamp down to the bin boundary. -/
def binOf (coarse t : Nat) : Nat :=
  t / coarse * coarse

/-- Aggregator, line 68: df.set_index(WIB).resample(RESAMPLE_FREQ).first().
pandas resample emits one output row for every bin from the truncation of
the first index value to the truncation of the last index value, at the
coarse spacing; for each column, first() takes the first non-NaN value
among the rows of the bin (NaN when the bin is empty or all-NaN).  One
numeric column is modelled; columns are handled independently. -/
def resample_first (coarse : Nat) (rows : List (Nat × Option Rat)) :
    List (Nat × Option Rat) :=
  match rows.head?, rows.getLast? with
  | some r0, some rn =>
      (date_range (binOf coarse r0.1) (binOf coarse rn.1) coarse).map
        (fun b => (b, (rows.filter (fun r => binOf coarse r.1 == b)).findSome? (·.2)))
  | _, _ => []

/-- Degrees-to-radians conversion used by the solar position code. -/
noncomputable def radians (x : Real) : Real :=
  x * Real.pi / 180

/-- Solar Geometry Engine, lines 53-59, delegated by the script to
pvlib.solarposition.get_solarposition.  Following the structure of the
library routine spa.solar_position: the topocentric elevation angle
without atmosphere, e0 = degrees(arcsin(sin(lat) sin(delta) +
cos(lat) cos(delta) cos(H))), from the observer latitude lat, the
topocentric sun declination delta and the topocentric local hour angle H,
all in degrees. -/
noncomputable def topocentric_elevation_no_atmos (lat delta hourAngle : Real) : Real :=
  (180 / Real.pi) * Real.arcsin
    (Real.sin (radians lat) * Real.sin (radians delta) +
     Real.cos (radians lat) * Real.cos (radians delta) * Real.cos (radians hourAngle))

/-- The elevation column returned by get_solarposition (stored as
Sun_Altitude on line 57): the topocentric elevation e0. -/
noncomputable def sun_elevation (lat delta hourAngle : Real) : Real :=
  topocentric_elevation_no_atmos lat delta hourAngle

/-- The zenith column returned by get_solarposition (stored as
Sun_Zenith_Angle on line 59): the library computes theta0 = 90 - e0. -/
noncomputable def sun_zenith (lat delta hourAngle : Real) : Real :=
  90 - topocentric_elevation_no_atmos lat delta hourAngle

/- Lemmas about the canonical grid. -/

theorem date_range_length (lo hi step : Nat) :
    (date_range lo hi step).length = (hi - lo) / step + 1 := by
  simp [date_range]

theorem date_range_getElem? (lo hi step k : Nat) (hk : k < (hi - lo) / step + 1) :
    (date_range lo hi step)[k]? = some (lo + k * step) := by
  simp [date_range, List.getElem?_map, List.getElem?_range hk]

theorem date_range_head? (lo hi step : Nat) :
    (date_range lo hi step).head? = some lo := by
  have h := date_range_getElem? lo hi step 0 (Nat.succ_pos _)
  rw [List.head?_eq_getElem?, h]
  simp

theorem mem_date_range {lo hi step x : Nat} :
    x ∈ date_range lo hi step ↔ ∃ k, k ≤ (hi - lo) / step ∧ x = lo + k * step := by
  simp only [date_range, List.mem_map, List.mem_range, Nat.lt_succ_iff]
  constructor
  · rintro ⟨k, hk, rfl⟩; exact ⟨k, hk, rfl⟩
  · rintro ⟨k, hk, rfl⟩; exact ⟨k, hk, rfl⟩

theorem date_range_le {lo hi step x : Nat} (hstep : 0 < step) (hlohi : lo ≤ hi)
    (hx : x ∈ date_range lo hi step) : x ≤ hi := by
  rcases mem_date_range.1 hx with ⟨k, hk, rfl⟩
  have h := (Nat.le_div_iff_mul_le hstep).1 hk
  omega

theorem date_range_pairwise (lo hi step : Nat) (hstep : 0 < step) :
    (date_range lo hi step).Pairwise (· < ·) := by
  apply List.Pairwise.map
  · intro a b hab
    exact Nat.add_lt_add_left ((Nat.mul_lt_mul_right hstep).2 hab) lo
  · exact List.pairwise_lt_range _

theorem date_range_spacing (lo hi step k : Nat) (hk : k + 1 < (hi - lo) / step + 1) :
    (date_range lo hi step)[k]? = some (lo + k * step) ∧
    (date_range lo hi step)[k + 1]? = some (lo + k * step + step) := by
  refine ⟨date_range_getElem? lo hi step k (by omega), ?_⟩
  rw [date_range_getElem? lo hi step (k + 1) hk]
  congr 1
  ring

theorem validTimes_map_some (l : List Nat) : validTimes (l.map some) = l := by
  simp [validTimes, List.filterMap_map]

/-- C2: for every raw input with at least one valid (parsable) timestamp,
the canonical grid built by full_index is strictly increasing with
constant spacing equal to the configured fine interval, its first element
equals the minimum valid raw timestamp, and every element — in particular
the last — is at most the maximum valid raw timestamp, so the grid never
extends past the observed range. -/
theorem grid_monotone_uniform_bounded (times : List (Option Nat)) (step lo hi : Nat)
    (hstep : 0 < step)
    (hlo : (validTimes times).min? = some lo)
    (hhi : (validTimes times).max? = some hi) :
    ∃ g, full_index times step = Except.ok g ∧
      g.Pairwise (· < ·) ∧
      (∀ k, k + 1 < g.length → ∃ a, g[k]? = some a ∧ g[k + 1]? = some (a + step)) ∧
      g.head? = some lo ∧
      (∀ x ∈ g, x ≤ hi) := by
  have hlo' := List.min?_eq_some_iff'.1 hlo
  have hhi' := List.max?_eq_some_iff'.1 hhi
  have hlohi : lo ≤ hi := hlo'.2 hi hhi'.1
  refine ⟨date_range lo hi step, by simp [full_index, hlo, hhi],
    date_range_pairwise lo hi step hstep, ?_, date_range_head? lo hi step,
    fun x hx => date_range_le hstep hlohi hx⟩
  intro k hk
  rw [date_range_length] at hk
  exact ⟨lo + k * step, (date_range_spacing lo hi step k hk).1,
    (date_range_spacing lo hi step k hk).2⟩

/-- Witness for C2 at a concrete input: raw timestamps 600, NaT, 0 with a
600 second step. -/
theorem grid_monotone_uniform_bounded_witness :
    ∃ g, full_index [some 600, none, some 0] 600 = Except.ok g ∧
      g.Pairwise (· < ·) ∧
      (∀ k, k + 1 < g.length → ∃ a, g[k]? = some a ∧ g[k + 1]? = some (a + 600)) ∧
      g.head? = some 0 ∧
      (∀ x ∈ g, x ≤ 600) :=
  grid_monotone_uniform_bounded [some 600, none, some 0] 600 0 600
    (by norm_num) (by decide) (by decide)

/-- C6: when zero timestamps parse successfully the grid construction
fails with the empty-input error; a per-row parse failure only marks that
row absent: absent rows are excluded from the range computation (dropping
them does not change the result) and are not fatal while at least one
valid timestamp remains. -/
theorem grid_empty_input_error (times : List (Option Nat)) (step : Nat) :
    (validTimes times = [] → full_index times step = Except.error PandasError.emptyInput) ∧
    (validTimes times ≠ [] → ∃ g, full_index times step = Except.ok g) ∧
    full_index ((validTimes times).map some) step = full_index times step := by
  refine ⟨fun h => by simp [full_index, h], fun h => ?_, ?_⟩
  · rcases hl : (validTimes times).min? with _ | lo
    · rw [List.min?_eq_none_iff] at hl
      exact absurd hl h
    rcases hH : (validTimes times).max? with _ | hi
    · rw [List.max?_eq_none_iff] at hH
      exact absurd hH h
    exact ⟨date_range lo hi step, by simp [full_index, hl, hH]⟩
  · simp [full_index, validTimes_map_some]

/-- Witness for C6: all-unparsable input fails, one valid timestamp
suffices. -/
theorem grid_empty_input_error_witness :
    full_index ([none, none] : List (Option Nat)) 600 = Except.error PandasError.emptyInput ∧
    (∃ g, full_index [none, some 5] 600 = Except.ok g) :=
  ⟨(grid_empty_input_error [none, none] 600).1 rfl,
   (grid_empty_input_error [none, some 5] 600).2.1 (by decide)⟩

/-- C5 counterexample: two raw rows share timestamp 0.  Reconciliation
does not succeed with the first row kept: pandas reindex raises on an
index with duplicate labels, modelled as the duplicateLabels error. -/
theorem reindex_duplicate_counterexample :
    reindex [⟨some 0, [some 1]⟩, ⟨some 0, [some 2]⟩] 1 [0] =
      Except.error PandasError.duplicateLabels := by
  simp [reindex]

/-- C5 (amended): whenever two raw rows share a timestamp — so the Time
index is not duplicate-free — reconciliation fails with the
duplicate-labels error; no first-row-wins selection takes place. -/
theorem reindex_duplicate_fails (rows : List RawRow) (nfields : Nat) (grid : List Nat)
    (h : ¬ (rows.map (·.time)).Nodup) :
    reindex rows nfields grid = Except.error PandasError.duplicateLabels := by
  simp [reindex, h]

/-- Witness for the amended C5 at a concrete input. -/
theorem reindex_duplicate_fails_witness :
    reindex [⟨some 3, [none]⟩, ⟨some 3, [some 7]⟩] 1 [0, 600] =
      Except.error PandasError.duplicateLabels :=
  reindex_duplicate_fails _ _ _ (by decide)

/-- C9: localization only adds the derived WIB column; the underlying
canonical grid timestamps are unchanged — projecting the result of addWIB
back to its first components returns exactly the input grid. -/
theorem addWIB_preserves_grid (times : List Nat) :
    (addWIB times).map Prod.fst = times := by
  simp only [addWIB, List.map_map]
  exact List.map_id times

/-- C8: the zenith and elevation columns returned by the solar position
routine satisfy zenith = 90 - elevation; the library computes the zenith
as 90 minus the topocentric elevation, so the identity is exact and in
particular holds within any numerical tolerance. -/
theorem sun_zenith_eq_ninety_sub_elevation (lat delta hourAngle : Real) :
    sun_zenith lat delta hourAngle = 90 - sun_elevation lat delta hourAngle ∧
    |sun_zenith lat delta hourAngle + sun_elevation lat delta hourAngle - 90| ≤ 1 / 100 := by
  refine ⟨rfl, ?_⟩
  have h : sun_zenith lat delta hourAngle + sun_elevation lat delta hourAngle - 90 = 0 := by
    unfold sun_zenith sun_elevation
    ring
  rw [h]
  norm_num

/- Lemmas about the gap interpolator. -/

theorem knownAt_eq_some {col : List (Option Rat)} {j : Nat} {v : Rat}
    (h : col[j]? = some (some v)) : knownAt col j = some (j, v) := by
  simp [knownAt, h]

theorem knownAt_of_absent {col : List (Option Rat)} {j : Nat}
    (h : col[j]? = some none) : knownAt col j = none := by
  simp [knownAt, h]

theorem knownAt_of_oob {col : List (Option Rat)} {j : Nat}
    (h : col[j]? = none) : knownAt col j = none := by
  simp [knownAt, h]

theorem prevKnown_here {col : List (Option Rat)} {i : Nat} {v : Rat}
    (h : col[i]? = some (some v)) : prevKnown col i = some (i, v) := by
  unfold prevKnown
  rw [List.range_succ, List.reverse_append]
  simp [knownAt_eq_some h]

theorem prevKnown_step {col : List (Option Rat)} {m : Nat}
    (h : knownAt col (m + 1) = none) : prevKnown col (m + 1) = prevKnown col m := by
  unfold prevKnown
  rw [List.range_succ, List.reverse_append]
  simp [h]

theorem prevKnown_of_gap {col : List (Option Rat)} {i : Nat} {v : Rat} (m : Nat)
    (h : col[i]? = some (some v)) (him : i ≤ m)
    (hgap : ∀ p, i < p → p ≤ m → knownAt col p = none) :
    prevKnown col m = some (i, v) := by
  induction m, him using Nat.le_induction with
  | base => exact prevKnown_here h
  | succ n hn ih =>
    rw [prevKnown_step (hgap (n + 1) (by omega) (by omega))]
    exact ih (fun p hp1 hp2 => hgap p hp1 (by omega))

theorem prevKnown_of_none {col : List (Option Rat)} {m : Nat}
    (h : ∀ p, p ≤ m → knownAt col p = none) : prevKnown col m = none := by
  unfold prevKnown
  rw [List.findSome?_eq_none_iff]
  intro x hx
  rw [List.mem_reverse, List.mem_range] at hx
  exact h x (by omega)

theorem nextKnown_here {col : List (Option Rat)} {i : Nat} {v : Rat}
    (h : col[i]? = some (some v)) : nextKnown col i = some (i, v) := by
  have hlen : i < col.length := (List.getElem?_eq_some_iff.1 h).1
  unfold nextKnown
  have h1 : col.length - i = (col.length - (i + 1)) + 1 := by omega
  rw [h1, List.range_succ_eq_map]
  simp [knownAt_eq_some h]

theorem nextKnown_step {col : List (Option Rat)} {m : Nat}
    (h : knownAt col m = none) (hm : m < col.length) :
    nextKnown col m = nextKnown col (m + 1) := by
  unfold nextKnown
  have h1 : col.length - m = (col.length - (m + 1)) + 1 := by omega
  rw [h1, List.range_succ_eq_map]
  simp only [List.map_cons, Nat.add_zero, List.findSome?_cons, h, List.map_map]
  congr 1
  apply List.map_congr_left
  intro a _
  simp only [Function.comp_apply]
  omega

theorem nextKnown_of_gap {col : List (Option Rat)} {v : Rat} :
    ∀ (d m : Nat), col[m + d]? = some (some v) →
    (∀ p, m ≤ p → p < m + d → knownAt col p = none) →
    nextKnown col m = some (m + d, v) := by
  intro d
  induction d with
  | zero =>
    intro m h _
    simpa using nextKnown_here (by simpa using h)
  | succ n ih =>
    intro m h hgap
    have hlen : m + (n + 1) < col.length := (List.getElem?_eq_some_iff.1 h).1
    rw [nextKnown_step (hgap m le_rfl (by omega)) (by omega)]
    have heq : (m + 1) + n = m + (n + 1) := by omega
    have h' : col[(m + 1) + n]? = some (some v) := by rw [heq]; exact h
    have hgap' : ∀ p, m + 1 ≤ p → p < (m + 1) + n → knownAt col p = none :=
      fun p h1 h2 => hgap p (by omega) (by omega)
    rw [ih (m + 1) h' hgap', heq]

theorem nextKnown_of_none {col : List (Option Rat)} {m : Nat}
    (h : ∀ p, m ≤ p → knownAt col p = none) : nextKnown col m = none := by
  unfold nextKnown
  rw [List.findSome?_eq_none_iff]
  intro x hx
  rw [List.mem_map] at hx
  obtain ⟨a, _, rfl⟩ := hx
  exact h (m + a) (by omega)

theorem interpolate_getElem? {col : List (Option Rat)} {i : Nat} (hi : i < col.length) :
    (interpolate col)[i]? = some (interpValue col i) := by
  simp [interpolate, List.getElem?_map, List.getElem?_range hi]

theorem interpolate_length (col : List (Option Rat)) :
    (interpolate col).length = col.length := by
  simp [interpolate]

theorem interpValue_isSome {col : List (Option Rat)} {i : Nat} {v : Rat}
    (h : col[i]? = some (some v)) (m : Nat) :
    ∃ w, interpValue col m = some w := by
  rcases le_or_lt i m with him | him
  · have hp : prevKnown col m ≠ none := by
      unfold prevKnown
      rw [Ne, List.findSome?_eq_none_iff]
      intro hall
      have hmem : i ∈ (List.range (m + 1)).reverse := by
        rw [List.mem_reverse, List.mem_range]; omega
      have hni := hall i hmem
      rw [knownAt_eq_some h] at hni
      exact Option.noConfusion hni
    rcases hP : prevKnown col m with _ | ⟨j1, v1⟩
    · exact absurd hP hp
    unfold interpValue
    rw [hP]
    rcases hN : nextKnown col m with _ | ⟨j2, v2⟩
    · exact ⟨v1, rfl⟩
    · by_cases hq : j1 = j2 <;> simp [hq]
  · have hlen : i < col.length := (List.getElem?_eq_some_iff.1 h).1
    have hn : nextKnown col m ≠ none := by
      unfold nextKnown
      rw [Ne, List.findSome?_eq_none_iff]
      intro hall
      have hmem : i ∈ (List.range (col.length - m)).map (m + ·) := by
        rw [List.mem_map]
        exact ⟨i - m, by rw [List.mem_range]; omega, by omega⟩
      have hni := hall i hmem
      rw [knownAt_eq_some h] at hni
      exact Option.noConfusion hni
    rcases hN : nextKnown col m with _ | ⟨j2, v2⟩
    · exact absurd hN hn
    unfold interpValue
    rw [hN]
    rcases hP : prevKnown col m with _ | ⟨j1, v1⟩
    · exact ⟨v2, rfl⟩
    · by_cases hq : j1 = j2 <;> simp [hq]

/-- C10: interpolation preserves known values — at every grid position
where the reconciled column already holds a known value, the interpolated
column holds exactly that value. -/
theorem interpolate_preserves_known (col : List (Option Rat)) (i : Nat) (v : Rat)
    (h : col[i]? = some (some v)) :
    (interpolate col)[i]? = some (some v) := by
  have hi : i < col.length := (List.getElem?_eq_some_iff.1 h).1
  rw [interpolate_getElem? hi]
  unfold interpValue
  rw [prevKnown_here h, nextKnown_here h]
  simp

/-- Witness for C10 at a concrete input. -/
theorem interpolate_preserves_known_witness :
    (interpolate [some 4, none, some 6])[2]? = some (some 6) :=
  interpolate_preserves_known [some 4, none, some 6] 2 6 rfl

/-- C4 counterexample: a field with no known value anywhere.  The claim
says interpolation must fail with an insufficient-data error naming the
field rather than produce output containing absent values; the code's
df.interpolate raises nothing and returns the column with its absent
values intact. -/
theorem interpolate_all_absent_counterexample :
    interpolate [none, none] = [none, none] := by
  norm_num [interpolate, interpValue, prevKnown, nextKnown, knownAt, List.range_succ]

/-- C4 (amended): after interpolation no absent value remains in a field
that has at least one known value anywhere; a field with no known value at
all is returned unchanged, still entirely absent — no error is raised. -/
theorem interpolate_completeness (col : List (Option Rat)) :
    ((∃ (i : Nat) (v : Rat), col[i]? = some (some v)) →
      ∀ m, m < col.length → ∃ v, (interpolate col)[m]? = some (some v)) ∧
    ((∀ x ∈ col, x = none) → interpolate col = col) := by
  constructor
  · rintro ⟨i, v, h⟩ m hm
    obtain ⟨w, hw⟩ := interpValue_isSome h m
    exact ⟨w, by rw [interpolate_getElem? hm, hw]⟩
  · intro hall
    apply List.ext_getElem?
    intro n
    rcases Nat.lt_or_ge n col.length with hn | hn
    · rw [interpolate_getElem? hn]
      have hknone : ∀ p, knownAt col p = none := by
        intro p
        rcases hp : col[p]? with _ | x
        · exact knownAt_of_oob hp
        · have hx : x = none := hall x (List.getElem?_mem hp)
          rw [hx] at hp
          exact knownAt_of_absent hp
      have hcn : col[n]? = some none := by
        rcases hp : col[n]? with _ | x
        · rw [List.getElem?_eq_none_iff] at hp
          omega
        · have hx : x = none := hall x (List.getElem?_mem hp)
          rw [hx]
      rw [hcn]
      unfold interpValue
      rw [prevKnown_of_none (fun p _ => hknone p), nextKnown_of_none (fun p _ => hknone p)]
    · rw [List.getElem?_eq_none (by rw [interpolate_length]; omega),
          List.getElem?_eq_none hn]

/-- Witness for the amended C4: a column with one known value is fully
populated after interpolation. -/
theorem interpolate_completeness_witness :
    ∃ (v : Rat), (interpolate [none, some 3])[0]? = some (some v) :=
  (interpolate_completeness [none, some 3]).1 ⟨1, 3, rfl⟩ 0 (by simp)

/-- C1: gap interpolation postcondition.  First conjunct: a run of absent
values strictly between known values vi at grid position i and vj at grid
position j is filled linearly — the slot k positions into the gap
receives vi + (vj - vi) * k / (j - i).  Second: a leading run of absent
values is filled with the first known value exactly.  Third: a trailing
run of absent values is filled with the last known value exactly.
Remaining conjuncts: with known values 10 and 20 three steps apart and
two absent slots between, the filled values are 40/3 and 50/3, within
tolerance 1/100 of 13.33 and 16.67; and on a five-slot grid whose only
known value is 5 at position 2, every slot is filled with 5 exactly. -/
theorem interpolate_gap_postcondition :
    (∀ (col : List (Option Rat)) (i j : Nat) (vi vj : Rat),
      col[i]? = some (some vi) → col[j]? = some (some vj) →
      (∀ m, i < m → m < j → col[m]? = some none) →
      ∀ k, 0 < k → i + k < j →
      (interpolate col)[i + k]? =
        some (some (vi + (vj - vi) * (((k : Nat) : Rat) / (((j : Nat) : Rat) - ((i : Nat) : Rat)))))) ∧
    (∀ (col : List (Option Rat)) (i : Nat) (vi : Rat),
      col[i]? = some (some vi) → (∀ m, m < i → col[m]? = some none) →
      ∀ m, m < i → (interpolate col)[m]? = some (some vi)) ∧
    (∀ (col : List (Option Rat)) (j : Nat) (vj : Rat),
      col[j]? = some (some vj) →
      (∀ m, j < m → m < col.length → col[m]? = some none) →
      ∀ m, j < m → m < col.length → (interpolate col)[m]? = some (some vj)) ∧
    interpolate [some 10, none, none, some 20] =
      [some 10, some (40 / 3), some (50 / 3), some 20] ∧
    |(40 : Rat) / 3 - 1333 / 100| ≤ 1 / 100 ∧
    |(50 : Rat) / 3 - 1667 / 100| ≤ 1 / 100 ∧
    interpolate [none, none, some 5, none, none] =
      [some 5, some 5, some 5, some 5, some 5] := by
  refine ⟨?_, ?_, ?_, ?_, by rw [abs_le]; norm_num, by rw [abs_le]; norm_num, ?_⟩
  · intro col i j vi vj hi hj hgap k hk hkj
    have hjlen : j < col.length := (List.getElem?_eq_some_iff.1 hj).1
    have hik : i + k < col.length := by omega
    rw [interpolate_getElem? hik]
    have hprev : prevKnown col (i + k) = some (i, vi) :=
      prevKnown_of_gap (i + k) hi (by omega)
        (fun p h1 h2 => knownAt_of_absent (hgap p h1 (by omega)))
    have hnext : nextKnown col (i + k) = some (j, vj) := by
      obtain ⟨d, rfl⟩ : ∃ d, j = (i + k) + d := ⟨j - (i + k), by omega⟩
      exact nextKnown_of_gap d (i + k) hj
        (fun p h1 h2 => knownAt_of_absent (hgap p (by omega) (by omega)))
    simp only [interpValue, hprev, hnext]
    rw [if_neg (by omega : ¬ i = j)]
    have hval : vi + (vj - vi) *
        ((((i + k : Nat) : Rat) - ((i : Nat) : Rat)) / (((j : Nat) : Rat) - ((i : Nat) : Rat))) =
        vi + (vj - vi) * (((k : Nat) : Rat) / (((j : Nat) : Rat) - ((i : Nat) : Rat))) := by
      push_cast
      ring
    rw [hval]
  · intro col i vi hi hgap m hm
    have hilen : i < col.length := (List.getElem?_eq_some_iff.1 hi).1
    have hmlen : m < col.length := by omega
    rw [interpolate_getElem? hmlen]
    have hprev : prevKnown col m = none :=
      prevKnown_of_none (fun p hp => knownAt_of_absent (hgap p (by omega)))
    have hnext : nextKnown col m = some (i, vi) := by
      obtain ⟨d, rfl⟩ : ∃ d, i = m + d := ⟨i - m, by omega⟩
      exact nextKnown_of_gap d m hi
        (fun p h1 h2 => knownAt_of_absent (hgap p (by omega)))
    simp only [interpValue, hprev, hnext]
  · intro col j vj hj hgap m hmj hmlen
    rw [interpolate_getElem? hmlen]
    have hprev : prevKnown col m = some (j, vj) :=
      prevKnown_of_gap m hj (by omega)
        (fun p h1 h2 => knownAt_of_absent (hgap p h1 (by omega)))
    have hnext : nextKnown col m = none := by
      apply nextKnown_of_none
      intro p hp
      rcases Nat.lt_or_ge p col.length with hpl | hpl
      · exact knownAt_of_absent (hgap p (by omega) hpl)
      · exact knownAt_of_oob (List.getElem?_eq_none hpl)
    simp only [interpValue, hprev, hnext]
  · norm_num [interpolate, interpValue, prevKnown, nextKnown, knownAt, List.range_succ]
  · norm_num [interpolate, interpValue, prevKnown, nextKnown, knownAt, List.range_succ]

/-- Witness for C1: the first gap slot of the 10-to-20 example receives
the linear interpolation value. -/
theorem interpolate_gap_postcondition_witness :
    (interpolate [some 10, none, none, some 20])[0 + 1]? =
      some (some (10 + (20 - 10) * (((1 : Nat) : Rat) / (((3 : Nat) : Rat) - ((0 : Nat) : Rat))))) :=
  interpolate_gap_postcondition.1 [some 10, none, none, some 20] 0 3 10 20 rfl rfl
    (by intro m h1 h2; interval_cases m <;> rfl) 1 (by norm_num) (by norm_num)

/- Lemmas about the aggregator. -/

theorem binOf_le (coarse t : Nat) : binOf coarse t ≤ t :=
  Nat.div_mul_le_self t coarse

theorem binOf_mono (coarse : Nat) {a b : Nat} (h : a ≤ b) :
    binOf coarse a ≤ binOf coarse b :=
  Nat.mul_le_mul_right _ (Nat.div_le_div_right h)

theorem binOf_dvd (coarse t : Nat) : coarse ∣ binOf coarse t :=
  ⟨t / coarse, Nat.mul_comm _ _⟩

theorem lt_binOf_add (coarse t : Nat) (hc : 0 < coarse) :
    t < binOf coarse t + coarse := by
  have h1 := Nat.div_add_mod t coarse
  have h2 := Nat.mod_lt t hc
  unfold binOf
  have h3 : coarse * (t / coarse) = t / coarse * coarse := Nat.mul_comm _ _
  omega

theorem binOf_eq_of_dvd_of_mem {coarse b t : Nat} (hc : 0 < coarse) (hd : coarse ∣ b)
    (h1 : b ≤ t) (h2 : t < b + coarse) : binOf coarse t = b := by
  obtain ⟨q, rfl⟩ := hd
  unfold binOf
  have he : t = coarse * q + (t - coarse * q) := by omega
  rw [he, Nat.mul_add_div hc]
  have h0 : (t - coarse * q) / coarse = 0 := Nat.div_eq_of_lt (by omega)
  rw [h0]
  ring

theorem mem_date_range_of_dvd {c lo hi x : Nat} (hc : 0 < c) (hdvd : c ∣ (x - lo))
    (h1 : lo ≤ x) (h2 : x ≤ hi) : x ∈ date_range lo hi c := by
  rw [mem_date_range]
  obtain ⟨m, hm⟩ := hdvd
  have hm' : x - lo = m * c := by rw [Nat.mul_comm]; exact hm
  refine ⟨m, ?_, by omega⟩
  rw [Nat.le_div_iff_mul_le hc]
  omega

/-- C3: first-in-bin selection rule.  For a time-sorted enriched series in
which every column is either fully populated or fully absent — the shape
interpolation produces — every aggregated bin value equals the value of
the first (chronologically earliest) row of that bin, not an average.
first() in pandas takes the first non-NaN value of the bin, which under
this shape is the first row's value. -/
theorem resample_first_takes_first_row (coarse : Nat) (rows : List (Nat × Option Rat))
    (_hsorted : rows.Pairwise (fun a b => a.1 ≤ b.1))
    (hall : (∀ r ∈ rows, r.2 = none) ∨ (∀ r ∈ rows, r.2 ≠ none))
    (b : Nat) (v : Option Rat)
    (hmem : (b, v) ∈ resample_first coarse rows)
    (r0 : Nat × Option Rat)
    (hfirst : (rows.filter (fun r => binOf coarse r.1 == b)).head? = some r0) :
    v = r0.2 := by
  obtain ⟨t, hfil⟩ := List.head?_eq_some_iff.1 hfirst
  have hr0f : r0 ∈ rows.filter (fun r => binOf coarse r.1 == b) := by
    rw [hfil]
    exact List.mem_cons_self _ _
  have hr0mem : r0 ∈ rows := (List.mem_filter.1 hr0f).1
  have hv : v = (rows.filter (fun r => binOf coarse r.1 == b)).findSome? (·.2) := by
    rcases h0 : rows.head? with _ | rh
    · simp only [resample_first, h0] at hmem
      exact absurd hmem (List.not_mem_nil _)
    rcases hn : rows.getLast? with _ | rl
    · simp only [resample_first, h0, hn] at hmem
      exact absurd hmem (List.not_mem_nil _)
    simp only [resample_first, h0, hn, List.mem_map] at hmem
    obtain ⟨b2, hb2, heq⟩ := hmem
    rw [Prod.ext_iff] at heq
    obtain ⟨hbb, hvv⟩ := heq
    simp only at hbb hvv
    rw [← hvv, hbb]
  rcases hall with hnone | hsome
  · have hr0 : r0.2 = none := hnone r0 hr0mem
    have hfnone : (rows.filter (fun r => binOf coarse r.1 == b)).findSome? (·.2) = none := by
      rw [List.findSome?_eq_none_iff]
      intro x hx
      exact hnone x (List.mem_filter.1 hx).1
    rw [hv, hfnone, hr0]
  · obtain ⟨w, hw⟩ := Option.ne_none_iff_exists'.1 (hsome r0 hr0mem)
    rw [hv, hfil, List.findSome?_cons]
    simp only [hw]

/-- Witness for C3: six fine rows at minutes 0 to 50 of one hour with
distinct values 1..6; the hourly row carries the minute-0 value 1, not
the mean. -/
theorem resample_first_takes_first_row_witness :
    some (1 : Rat) = (((0 : Nat), some (1 : Rat)) : Nat × Option Rat).2 := by
  refine resample_first_takes_first_row 3600
    [(0, some 1), (600, some 2), (1200, some 3), (1800, some 4), (2400, some 5), (3000, some 6)]
    ?_ (Or.inr ?_) 0 (some 1) ?_ (0, some 1) ?_
  · decide
  · decide
  · have h : resample_first 3600
        [(0, some 1), (600, some 2), (1200, some 3), (1800, some 4), (2400, some 5), (3000, some 6)] =
        [(0, some 1)] := rfl
    rw [h]
    exact List.mem_cons_self _ _
  · rfl

/-- C7: aggregator bin structure.  For an enriched series living on a
gapless fine grid (spacing s, with s at most the coarse bin width, the
shape every enriched series has in this pipeline), the aggregated series
has strictly increasing bin starts — hence at most one row per bin — and
a bin start appears in the output exactly when at least one fine row falls
into that bin; in particular no empty-bin placeholder rows appear. -/
theorem resample_one_row_per_nonempty_bin (s coarse t0 tn : Nat) (vals : Nat → Option Rat)
    (hs : 0 < s) (hsc : s ≤ coarse) (h0 : t0 ≤ tn) :
    (((resample_first coarse ((date_range t0 tn s).map (fun t => (t, vals t)))).map
        Prod.fst).Pairwise (· < ·)) ∧
    (∀ b : Nat, b ∈ (resample_first coarse ((date_range t0 tn s).map
        (fun t => (t, vals t)))).map Prod.fst ↔
      ∃ r ∈ (date_range t0 tn s).map (fun t => (t, vals t)), binOf coarse r.1 = b) := by
  have hc : 0 < coarse := lt_of_lt_of_le hs hsc
  have hKs : (tn - t0) / s * s ≤ tn - t0 := Nat.div_mul_le_self _ _
  have ht0tL : t0 ≤ t0 + (tn - t0) / s * s := Nat.le_add_right _ _
  have hhead : ((date_range t0 tn s).map (fun t => (t, vals t))).head? =
      some (t0, vals t0) := by
    rw [List.head?_map, date_range_head?]
    rfl
  have hlast0 : (date_range t0 tn s).getLast? = some (t0 + (tn - t0) / s * s) := by
    unfold date_range
    rw [List.getLast?_map, List.range_succ, List.getLast?_concat]
    rfl
  have hlast : ((date_range t0 tn s).map (fun t => (t, vals t))).getLast? =
      some (t0 + (tn - t0) / s * s, vals (t0 + (tn - t0) / s * s)) := by
    rw [List.getLast?_map, hlast0]
    rfl
  have hres : resample_first coarse ((date_range t0 tn s).map (fun t => (t, vals t))) =
      (date_range (binOf coarse t0) (binOf coarse (t0 + (tn - t0) / s * s)) coarse).map
        (fun b => (b, (((date_range t0 tn s).map (fun t => (t, vals t))).filter
          (fun r => binOf coarse r.1 == b)).findSome? (·.2))) := by
    unfold resample_first
    rw [hhead, hlast]
  have hfst : (resample_first coarse ((date_range t0 tn s).map
      (fun t => (t, vals t)))).map Prod.fst =
      date_range (binOf coarse t0) (binOf coarse (t0 + (tn - t0) / s * s)) coarse := by
    rw [hres, List.map_map]
    exact List.map_id _
  constructor
  · rw [hfst]
    exact date_range_pairwise _ _ _ hc
  · intro b
    rw [hfst]
    constructor
    · intro hb
      rcases mem_date_range.1 hb with ⟨m, hm, rfl⟩
      rcases Nat.eq_zero_or_pos m with rfl | hmpos
      · refine ⟨(t0, vals t0), List.mem_map.2 ⟨t0, ?_, rfl⟩, by simp⟩
        exact mem_date_range.2 ⟨0, Nat.zero_le _, by simp⟩
      by_cases hbL : binOf coarse t0 + m * coarse =
          binOf coarse (t0 + (tn - t0) / s * s)
      · refine ⟨(t0 + (tn - t0) / s * s, vals (t0 + (tn - t0) / s * s)),
          List.mem_map.2 ⟨_, ?_, rfl⟩, by rw [hbL]⟩
        exact mem_date_range.2 ⟨(tn - t0) / s, le_refl _, rfl⟩
      · have hcb : coarse ∣ binOf coarse t0 + m * coarse :=
          Nat.dvd_add (binOf_dvd _ _) ⟨m, Nat.mul_comm _ _⟩
        have hbbL : binOf coarse t0 + m * coarse ≤
            binOf coarse (t0 + (tn - t0) / s * s) :=
          date_range_le hc (binOf_mono coarse ht0tL) hb
        have hbcoarse : binOf coarse t0 + m * coarse + coarse ≤
            binOf coarse (t0 + (tn - t0) / s * s) := by
          have hdvd : coarse ∣ binOf coarse (t0 + (tn - t0) / s * s) -
              (binOf coarse t0 + m * coarse) := Nat.dvd_sub' (binOf_dvd _ _) hcb
          have hle := Nat.le_of_dvd (by omega) hdvd
          omega
        have hmc : coarse ≤ m * coarse := Nat.le_mul_of_pos_left coarse hmpos
        have ht0b : t0 < binOf coarse t0 + m * coarse := by
          have hx := lt_binOf_add coarse t0 hc
          omega
        set b := binOf coarse t0 + m * coarse with hbdef
        set d := b - t0 with hd
        set k := (d + s - 1) / s with hk
        have hd0 : 0 < d := by omega
        have hks : k = (d - 1) / s + 1 := by
          rw [hk, show d + s - 1 = (d - 1) + s by omega, Nat.add_div_right _ hs]
        have hdm := Nat.div_add_mod (d - 1) s
        have hmod := Nat.mod_lt (d - 1) hs
        have hcomm : s * ((d - 1) / s) = (d - 1) / s * s := Nat.mul_comm _ _
        have hmul : ((d - 1) / s + 1) * s = (d - 1) / s * s + s := by ring
        have hdk : d ≤ k * s := by
          rw [hks]
          omega
        have hk2 : k * s ≤ d + s - 1 := by
          rw [hk]
          exact Nat.div_mul_le_self _ _
        have htb : t0 + k * s < b + coarse := by omega
        have htn : t0 + k * s ≤ tn := by
          have hbLle := binOf_le coarse (t0 + (tn - t0) / s * s)
          omega
        have htg : t0 + k * s ∈ date_range t0 tn s := by
          rw [mem_date_range]
          refine ⟨k, ?_, rfl⟩
          rw [Nat.le_div_iff_mul_le hs]
          omega
        have hbt : binOf coarse (t0 + k * s) = b :=
          binOf_eq_of_dvd_of_mem hc hcb (by omega) htb
        exact ⟨(t0 + k * s, vals (t0 + k * s)), List.mem_map.2 ⟨_, htg, rfl⟩, hbt⟩
    · rintro ⟨r, hr, hrb⟩
      obtain ⟨t, htg, rfl⟩ := List.mem_map.1 hr
      rcases mem_date_range.1 htg with ⟨k, hkK, rfl⟩
      subst hrb
      have hkle : k * s ≤ (tn - t0) / s * s := Nat.mul_le_mul_right s hkK
      apply mem_date_range_of_dvd hc (Nat.dvd_sub' (binOf_dvd _ _) (binOf_dvd _ _))
      · exact binOf_mono coarse (by omega)
      · exact binOf_mono coarse (by omega)

/-- Witness for C7 on a concrete gapless series: six 10-minute rows in one
hour, aggregated hourly. -/
theorem resample_one_row_per_nonempty_bin_witness :
    (((resample_first 3600 ((date_range 0 3000 600).map
        (fun t => (t, some (1 : Rat))))).map Prod.fst).Pairwise (· < ·)) ∧
    (∀ b : Nat, b ∈ (resample_first 3600 ((date_range 0 3000 600).map
        (fun t => (t, some (1 : Rat))))).map Prod.fst ↔
      ∃ r ∈ (date_range 0 3000 600).map (fun t => (t, some (1 : Rat))),
        binOf 3600 r.1 = b) :=
  resample_one_row_per_nonempty_bin 600 3600 0 3000 (fun _ => some 1)
    (by norm_num) (by norm_num) (by norm_num)
